import Mathlib

/-!
# Verification of the colbak backup engine against its specification

This file gives a shallow embedding, in Lean 4, of the parts of the
colbak source that the specification's claims are about, together with
theorems settling each claim.

Conventions of the embedding:
* Rust machine integers (`u16`, `u32`, `u64`) are modelled as `ℕ` with
  explicit `% 2^w` (or bit masks) exactly where the Rust code truncates.
* Byte strings (paths, identifiers, archive bytes) are `List ℕ`, each
  element a byte value.
* Fallible Rust code is modelled with `Option`/`Except`; a (debug-build)
  panic is modelled as `none`.
* Asynchronous state machines are modelled as explicit step functions on
  a state type; the poll environment (chunks produced by the inner
  reader) is passed in as data.
-/

namespace Colbak

/-! ## Database ids — `src/database/mod.rs`

`generate_id` combines the snapshot ordinal and the row ordinal into a
single 63-bit id.  The source:
```
ensure!(table_id < (1 << 23), TooManySnapshots);
ensure!(row_id < (1 << 40), TooManyRows);
Ok((table_id << 40) | row_id)
```
The `ensure!` failures are modelled as `none`. -/
def generate_id (table_id row_id : ℕ) : Option ℕ :=
  if table_id < 2 ^ 23 then
    if row_id < 2 ^ 40 then
      some ((table_id <<< 40) ||| row_id)
    else none
  else none

/-! ## Cpio integer codecs — `src/cpio/mod.rs`

The old-binary cpio header stores 32-bit quantities as two 16-bit halves
(`convert_u32` / `decode_u32`) and extends the file size to 48 bits by
keeping the high 16 bits in the `rdev` field (`CpioHeader::from_info` /
`CpioHeader::size`). -/

/-- `convert_u32`: splits a `u32` into `[higher, lower]` 16-bit halves.
The `as u16` casts are the `% 2^16` truncations. -/
def convert_u32 (n : ℕ) : ℕ × ℕ :=
  ((n >>> 16) % 2 ^ 16, (n &&& 0xFFFF) % 2 ^ 16)

/-- `decode_u32`: reverse of `convert_u32`. -/
def decode_u32 (x : ℕ × ℕ) : ℕ :=
  (x.1 <<< 16) ||| x.2

/-- The file-size fields produced by `CpioHeader::from_info` for a file of
size `filesize`: `rdev` holds the bits above 32 (truncated to `u16`), and
`filesize` the low 32 bits split by `convert_u32`. -/
def from_info_size_fields (filesize : ℕ) : ℕ × (ℕ × ℕ) :=
  ((filesize >>> 32) % 2 ^ 16, convert_u32 ((filesize &&& 0xFFFFFFFF) % 2 ^ 32))

/-- `CpioHeader::size`: `(rdev << 32) | decode_u32 filesize`. -/
def header_size (rdev : ℕ) (filesize : ℕ × ℕ) : ℕ :=
  (rdev <<< 32) ||| decode_u32 filesize

/-! ## Path cropping — `src/path.rs`

`u64_to_ascii` writes a `u64` in little-endian base-`alphabet.len()`
notation over a Windows-safe alphabet; `EncodedPath::crop_name_to`
replaces the tail of an over-long path with such a hash while keeping the
dot-suffix found in the final 10 bytes.  The `DefaultHasher` value fed to
`u64_to_ascii` is produced by the Rust standard library (outside this
repository), so it enters the embedding as the parameter `hash`. -/

/-- The alphabet built in `u64_to_ascii`: 6 extra symbols, the digits and
the uppercase letters, reversed (42 symbols). -/
def asciiAlphabet : List ℕ :=
  ([45, 43, 33, 61, 95, 35] ++ (List.range 10).map (fun i => 48 + i) ++
    (List.range 26).map (fun i => 65 + i)).reverse

/-- The digit-writing loop of `u64_to_ascii`: while `num ≠ 0`, store
`alphabet[num % len]` at index `idx` and continue with `num / len`. -/
def u64ToAsciiAux (num idx : ℕ) (result : List ℕ) : List ℕ :=
  if _h : num = 0 then result
  else
    u64ToAsciiAux (num / asciiAlphabet.length) (idx + 1)
      (result.set idx (asciiAlphabet.getD (num % asciiAlphabet.length) 0))
termination_by num
decreasing_by
  exact Nat.div_lt_self (Nat.pos_of_ne_zero _h) (by decide)

/-- `u64_to_ascii`: 12 ascii symbols; starts from `[alphabet[0]; 12]`. -/
def u64_to_ascii (num : ℕ) : List ℕ :=
  u64ToAsciiAux num 0 (List.replicate 12 (asciiAlphabet.getD 0 0))

/-- The index of the rightmost `'.'` (byte 46) among the final
`EXTENSION_LENGTH` bytes of `p`, or `p.length` when there is none
(the `rfind`/`unwrap_or` expression in `crop_name_to`). -/
def dotIndex (p : List ℕ) : ℕ :=
  (((List.range p.length).filter
    (fun i => decide (p.length - 10 ≤ i) && decide (p.getD i 0 = 46))).getLast?).getD p.length

/-- `EncodedPath::crop_name_to`, with the `DefaultHasher` output passed in
as `hash`.  `none` models the panics: the `assert!(max_length >
HASH_LENGTH + EXTENSION_LENGTH)` and the (provably unreachable) slice
bound of `&name[..space_available]`. -/
def crop_name_to (hash max_length : ℕ) (p : List ℕ) : Option (List ℕ) :=
  if p.length ≤ max_length then some p
  else if ¬ 12 + 10 < max_length then none
  else
    let hashChars := u64_to_ascii hash
    let dot := dotIndex p
    let name := p.take dot
    let extension := p.drop dot
    let space_available := max_length - extension.length - hashChars.length
    if space_available ≤ name.length then
      some (name.take space_available ++ hashChars ++ extension)
    else none

/-- A 30-byte path ending in `".txt"`, used to witness C5. -/
def cropDemoPath : List ℕ := List.replicate 26 97 ++ [46, 116, 120, 116]

/-! ## Snapshot rows and the diff engine — `src/database/`

A snapshot's `snap` table has columns `(id, path, size, identifier,
info)` (`src/database/index.rs`, `init_snapshot`); `SnapshotFiller::add`
writes the path bytes, the optional size, the 32-byte identifier (empty
for non-files, `unwrap_or_default`) and the JSON text of the info.

`Diff::fill` (`src/database/difference.rs`) runs one `execute_batch` with
four `CREATE INDEX` statements, a `DELETE`, and three `INSERT … SELECT`
statements (Deleted, Created, Changed).  `execute_batch` prepares and
runs the statements sequentially and stops at the first error, keeping
the effects of the statements already run (there is no surrounding
transaction).

The Changed statement reads
`SELECT {before}.snap.id, {after}.snap.id, {changed}, size, path FROM
{after}.snap INNER JOIN {before}.snap USING (identifier) …`: the
unqualified `size` and `path` references are ambiguous between the two
joined `snap` tables, which SQLite rejects at prepare time with
"ambiguous column name: size" (behaviour verified against SQLite; only
the `USING` column `identifier` is exempt from ambiguity).  The embedding
models SQLite's resolution of an unqualified column name explicitly. -/

/-- One row of a snapshot's `snap` table. -/
structure SnapRow where
  id : ℕ
  path : List ℕ
  size : Option ℕ
  identifier : List ℕ
  info : String
deriving DecidableEq

inductive DiffType where
  | Deleted
  | Created
  | Changed
deriving DecidableEq

/-- The bit value of each `DiffType` (`Deleted = 0b001`, `Created =
0b010`, `Changed = 0b100`). -/
def DiffType.toBits : DiffType → ℕ
  | .Deleted => 1
  | .Created => 2
  | .Changed => 4

/-- One row of the diff table `(before, after, type, size, path)`. -/
structure DiffTableRow where
  before : Option ℕ
  after : Option ℕ
  type : DiffType
  size : Option ℕ
  path : List ℕ
deriving DecidableEq

inductive SqlError where
  | ambiguousColumn (name : String)
  | noSuchColumn (name : String)
deriving DecidableEq

/-- SQLite resolution of an unqualified column name against the tables in
scope: exactly one table exposing the column is required. -/
def resolveColumn (tables : List (String × List String)) (col : String) :
    Except SqlError String :=
  match tables.filter (fun t => col ∈ t.2) with
  | [] => .error (.noSuchColumn col)
  | [t] => .ok t.1
  | _ => .error (.ambiguousColumn col)

/-- Columns of a `snap` table. -/
def snapColumns : List String := ["id", "path", "size", "identifier", "info"]

/-- The Changed `INSERT … SELECT`: its `FROM` clause joins `{after}.snap`
with `{before}.snap` (the `USING (identifier)` column is exempt from
ambiguity, `size` and `path` are not).  Preparation resolves the
unqualified columns first; on success the join rows would be produced,
with `size`/`path` drawn from whichever table the name resolved to. -/
def changedInsert (before after : List SnapRow) : Except SqlError (List DiffTableRow) := do
  let tSize ← resolveColumn [("after", snapColumns), ("before", snapColumns)] "size"
  let tPath ← resolveColumn [("after", snapColumns), ("before", snapColumns)] "path"
  .ok (after.flatMap fun a =>
    (before.filter fun b =>
        decide (b.identifier = a.identifier) && decide (a.info ≠ b.info)).map fun b =>
      { before := some b.id, after := some a.id, type := .Changed,
        size := if tSize = "after" then a.size else b.size,
        path := if tPath = "after" then a.path else b.path })

/-- `Diff::fill`: the resulting contents of the diff table together with
the error `execute_batch` stops at (if any).  The Deleted and Created
inserts run first; the Changed insert fails to prepare, so `fill` leaves
the first two statements' rows in the table and reports the error. -/
def fill (before after : List SnapRow) : List DiffTableRow × Option SqlError :=
  let afterIdents := after.map SnapRow.identifier
  let beforeIdents := before.map SnapRow.identifier
  let deleted := (before.filter fun r => decide (r.identifier ∉ afterIdents)).map
    fun r => { before := some r.id, after := none, type := .Deleted,
               size := r.size, path := r.path : DiffTableRow }
  let created := (after.filter fun r => decide (r.identifier ∉ beforeIdents)).map
    fun r => { before := none, after := some r.id, type := .Created,
               size := r.size, path := r.path : DiffTableRow }
  match changedInsert before after with
  | .error e => (deleted ++ created, some e)
  | .ok changed => (deleted ++ created ++ changed, none)

/-- The `before` snapshot of the C2 scenario: one file at path `[112]`
with identifier bytes `[1]` and serialised info `"infoA"`. -/
def c2Before : List SnapRow := [⟨1, [112], some 5, [1], "infoA"⟩]

/-- The `after` snapshot of the C2 scenario: the same path, but the
content was modified, so the identifier bytes (and the info) differ. -/
def c2After : List SnapRow := [⟨2, [112], some 6, [2], "infoB"⟩]

/-! ## Hashing stream — `src/stream_hash.rs`

`StreamHash<R, D>` is generic in the digest `D`, which it only drives
through `digest.update(..)`; the digest is therefore modelled by the
exact byte stream fed to it (two digests of the same algorithm agree iff
their input streams agree, so "digest = SHA-256(B)" is formalised as
"digest input = B").

`poll_read` forwards to the inner reader and then calls
`digest.update(buf.filled())`.  A tokio `ReadBuf` may already contain
previously-filled bytes when `poll_read` is called (e.g. `read_exact`
re-polls with the same growing buffer), and `buf.filled()` is the *whole*
filled region — so each call feeds `pre ++ chunk`, where `pre` is the
buffer content before the call and `chunk` the bytes the inner reader
appended. -/

/-- One `poll_read` call: returns (buffer contents after the call, new
digest input stream). -/
def streamHashPollRead (digest pre chunk : List ℕ) : List ℕ × List ℕ :=
  (pre ++ chunk, digest ++ (pre ++ chunk))

/-- A run of successive `poll_read` calls, each given by the buffer's
pre-filled content and the chunk the inner reader appends; returns the
final digest input stream. -/
def streamHashReadRun (calls : List (List ℕ × List ℕ)) : List ℕ :=
  calls.foldl (fun digest c => (streamHashPollRead digest c.1 c.2).2) []

/-- One `poll_write` call with caller buffer `buf`, of which the inner
writer accepts `len` bytes: returns (bytes passed to the inner writer,
new digest input stream) — the digest is updated with `buf[..len]`. -/
def streamHashPollWrite (digest buf : List ℕ) (len : ℕ) : List ℕ × List ℕ :=
  (buf.take len, digest ++ buf.take len)

/-- A run of successive `poll_write` calls; returns (all bytes seen by
the inner writer, final digest input stream). -/
def streamHashWriteRun (calls : List (List ℕ × ℕ)) : List ℕ × List ℕ :=
  calls.foldl (fun acc c =>
    ((acc.1 ++ (streamHashPollWrite acc.2 c.1 c.2).1),
      (streamHashPollWrite acc.2 c.1 c.2).2)) ([], [])

/-! ## Cpio header bytes and the writer state machine — `src/cpio/`

`CpioHeader` is a `repr(C)` struct of thirteen `u16` fields;
`into_array` transmutes it, so on the (little-endian) target each field
becomes two bytes, low byte first.  `CpioHeader::trailer(content)` emits
that header with `namesize = 11`, the name `"TRAILER!!!\0"`, one padding
NUL (11 is odd) and then `content`; `Archive::trailer` passes the
serde_json serialisation of the pending infos as `content`
(`serde_json::to_vec` of an empty list is `"[]"`).

The writer (`src/cpio/writer.rs`) is the state machine
`None → Header → OpeningFile → File → … → None → Trailer → Eof`, each
`advance` emitting bytes into the smart buffer; `states::Eof::advance`
calls `buf.eof()` and stays in `Eof`.  The per-file data that `advance`
obtains from the environment (the encoded header bytes, the chunk
sequence the opened file yields) is carried by `MPending`. -/

/-- Two little-endian bytes of a `u16` field. -/
def u16le (n : ℕ) : List ℕ := [n % 2 ^ 8, n / 2 ^ 8 % 2 ^ 8]

/-- The thirteen `u16` fields of `CpioHeader`, in `repr(C)` order. -/
structure CpioHeader where
  magic : ℕ
  dev_ino : ℕ × ℕ
  mode : ℕ
  uid : ℕ
  gid : ℕ
  nlink : ℕ
  rdev : ℕ
  mtime : ℕ × ℕ
  namesize : ℕ
  filesize : ℕ × ℕ

/-- `CpioHeader::into_array`: the 26 bytes of the `repr(C)` struct,
little-endian per field. -/
def CpioHeader.into_array (h : CpioHeader) : List ℕ :=
  u16le h.magic ++ u16le h.dev_ino.1 ++ u16le h.dev_ino.2 ++ u16le h.mode ++
    u16le h.uid ++ u16le h.gid ++ u16le h.nlink ++ u16le h.rdev ++
    u16le h.mtime.1 ++ u16le h.mtime.2 ++ u16le h.namesize ++
    u16le h.filesize.1 ++ u16le h.filesize.2

/-- The bytes of `TRAILER` = `b"TRAILER!!!\0"` (length 11). -/
def trailerName : List ℕ := [84, 82, 65, 73, 76, 69, 82, 33, 33, 33, 0]

/-- `CpioHeader::trailer(content)`: sentinel header, name, one padding
NUL (`TRAILER_LEN = 11` is odd), then `content`. -/
def CpioHeader.trailer (content : List ℕ) : List ℕ :=
  let header : CpioHeader :=
    { magic := 0o070707, dev_ino := (0, 0), mode := 0, uid := 0, gid := 0,
      nlink := 0, rdev := 0, mtime := (0, 0), namesize := 11,
      filesize := (0, 0) }
  header.into_array ++ trailerName ++
    (if 11 % 2 ≠ 0 then [0] else []) ++ content

/-- `serde_json::to_vec` of an empty list of infos: `"[]"`. -/
def jsonEmptyArray : List ℕ := [91, 93]

/-- One `Pending` file as the writer's environment sees it: the bytes of
its encoded header, and the successive non-empty chunks its opened reader
yields before EOF. -/
structure MPending where
  headerBytes : List ℕ
  chunks : List (List ℕ)

/-- The archive descriptor driving the writer: the queued files and the
bytes of the serialised trailing manifest. -/
structure MArchive where
  files : List MPending
  manifestBytes : List ℕ

/-- `Archive::trailer`. -/
def MArchive.trailer (a : MArchive) : List ℕ :=
  CpioHeader.trailer a.manifestBytes

/-- The states of the writer machine (`enum State` in
`src/cpio/writer.rs`); `file` carries the running length counter and the
chunks not yet read. -/
inductive WState where
  | none (position : ℕ)
  | header (position : ℕ)
  | openingFile (position : ℕ)
  | file (position length : ℕ) (remaining : List (List ℕ))
  | trailer
  | eof
deriving DecidableEq

/-- One `advance` of the machine: the bytes put into the smart buffer,
whether `buf.eof()` was signalled, and the next state.  Mirrors the
`Advanceable` impls: `None` moves to `Header` while files remain, else to
`Trailer`; `Header` emits the encoded header; `OpeningFile` resolves to
`File`; `File` forwards one chunk (or, at EOF, emits the padding NUL for
an odd length and steps to the next file); `Trailer` emits
`Archive::trailer`; `Eof` signals end-of-stream and stays `Eof`. -/
def advance (a : MArchive) : WState → List ℕ × Bool × WState
  | .none pos =>
      if pos < a.files.length then ([], false, .header pos)
      else ([], false, .trailer)
  | .header pos =>
      ((a.files.getD pos ⟨[], []⟩).headerBytes, false, .openingFile pos)
  | .openingFile pos =>
      ([], false, .file pos 0 (a.files.getD pos ⟨[], []⟩).chunks)
  | .file pos length remaining =>
      match remaining with
      | [] => ((if length % 2 ≠ 0 then [0] else []), false, .none (pos + 1))
      | c :: rest => (c, false, .file pos (length + c.length) rest)
  | .trailer => (a.trailer, false, .eof)
  | .eof => ([], true, .eof)

/-- Run the machine for `n` steps, collecting all emitted bytes. -/
def runFrom (a : MArchive) : WState → ℕ → WState × List ℕ
  | s, 0 => (s, [])
  | s, n + 1 =>
      let step := advance a s
      let rest := runFrom a step.2.2 n
      (rest.1, step.1 ++ rest.2)

/-- The archive with zero queued files. -/
def emptyArchive : MArchive := ⟨[], jsonEmptyArray⟩

/-- The full byte stream of the empty archive: the machine starts in
`None(0)` and reaches `Eof` in three steps
(`None → Trailer → Eof`, then `Eof` signals end-of-stream). -/
def emptyArchiveStream : List ℕ :=
  (runFrom emptyArchive (.none 0) 3).2

/-! ## Diff query filters and the packer — `src/database/difference.rs`,
`src/packer.rs`

The packer reads the filled diff table through `DiffQuery`:
`query()` enables all three kinds (`0b111`) and `pack` narrows the sizes
with `less_than(min_size)` (sizes `0..=min_size - 1`; the `u64`
subtraction `size - 1` underflows for `size = 0`, a panic in debug
builds, modelled as `none`) and `larger_or_eq(min_size)` (sizes
`min_size..=u64::MAX`).

`pack` builds an in-memory directory tree from the path prefixes of the
small Created/Changed rows.  The embedding represents a `Directory` node
by its prefix key: `prefixes` (from `src/path.rs`) yields the chain
`"" , p[0..s₁], p[0..s₂], …` of a path's prefixes at its slash positions,
so the parent pointer installed by the building loop (the previous prefix
in the chain) is exactly the last prefix of the key itself (`parentKey`),
and a node's `subdirs` vector holds, in creation order, the keys whose
parent is that node.  The per-directory `files` sets and the global
`files` set are kept in sync by the source (each insertion and removal is
paired, checked by debug assertions), so the embedding derives the
per-directory set as the filter of the global remaining set by the file's
directory key, iterated in the `BTreeSet` order `(size, rowid)`. -/

/-- `u64` subtraction; debug builds panic on underflow (`none`). -/
def u64CheckedSub (a b : ℕ) : Option ℕ :=
  if b ≤ a then some (a - b) else Option.none

/-- `DiffQuery::less_than(size)`: `with_size(0..=size - 1)`. -/
def less_than (size : ℕ) : Option (ℕ × ℕ) :=
  (u64CheckedSub size 1).map (fun u => (0, u))

/-- `DiffQuery::larger_or_eq(size)`: `with_size(size..=u64::MAX)`. -/
def larger_or_eq (size : ℕ) : ℕ × ℕ :=
  (size, 2 ^ 64 - 1)

/-- One row of the diff table as the packer's queries see it. -/
structure PRow where
  rowid : ℕ
  type : DiffType
  size : Option ℕ
  path : List ℕ
deriving DecidableEq

/-- SQL three-valued comparison of the nullable `size` column against an
inclusive range: `{min} <= size AND size <= {max}` is NULL (not true)
when `size` is NULL, so the `WHERE` clause keeps only rows with a
non-NULL size inside the range. -/
def sqlSizeInRange (size : Option ℕ) (range : ℕ × ℕ) : Bool :=
  match size with
  | Option.none => false
  | some sz => decide (range.1 ≤ sz) && decide (sz ≤ range.2)

/-- The rows a `DiffQuery` yields: kind bitmask `0b111` (all kinds, as
`pack` uses it) and the inclusive size range.  The `size` column is NULL
for directory and unknown rows (`SnapshotFiller::add` binds
`Info::size() = None`), and NULL satisfies neither size comparison. -/
def queryRows (diff : List PRow) (range : ℕ × ℕ) : List PRow :=
  diff.filter fun r =>
    decide ((DiffType.toBits r.type &&& 0b111) ≠ 0) &&
      sqlSizeInRange r.size range

/-- A `File` node of the packer: rowid, size and the path it came from
(its `directory` back-link is `dirOf path`). -/
structure PFile where
  rowid : ℕ
  size : ℕ
  path : List ℕ
deriving DecidableEq

/-- `EncodedPath::prefixes`: the empty prefix followed by `p[0..i]` for
every slash position `i`, in order. -/
def prefixes (p : List ℕ) : List (List ℕ) :=
  [[]] ++ ((List.range p.length).filter (fun i => decide (p.getD i 0 = 47))).map
    (fun i => p.take i)

/-- The directory key a file with path `p` is inserted into: the last
prefix of `p`. -/
def dirOf (p : List ℕ) : List ℕ :=
  (prefixes p).getLast?.getD []

/-- The parent link of a directory node with key `k`: the previous
element in any prefix chain containing `k`, which is the last prefix of
`k` itself; the root `""` has no parent. -/
def parentKey (k : List ℕ) : Option (List ℕ) :=
  if k = [] then Option.none else some (dirOf k)

/-- The get-or-create loop over one path's prefixes: keys are appended to
the creation-order list when first seen. -/
def addDirs (dirs : List (List ℕ)) (p : List ℕ) : List (List ℕ) :=
  (prefixes p).foldl (fun ds k => if k ∈ ds then ds else ds ++ [k]) dirs

/-- All directory keys created while inserting the given files, in
creation order. -/
def buildDirs (files : List PFile) : List (List ℕ) :=
  files.foldl (fun ds f => addDirs ds f.path) []

/-- A node's `subdirs` vector: the keys whose parent is `d`, in creation
order. -/
def childDirs (dirs : List (List ℕ)) (d : List ℕ) : List (List ℕ) :=
  dirs.filter (fun k => decide (parentKey k = some d))

/-- The breadth-first walk of `find_related_directories`: `n` rounds,
each pushing the current front and expanding it to its children. -/
def bfsAux (dirs : List (List ℕ)) : ℕ → List (List ℕ) → List (List ℕ)
  | 0, _ => []
  | n + 1, front => front ++ bfsAux dirs n (front.flatMap (childDirs dirs))

/-- `find_related_directories`: the file's directory and its descendants
up to depth 3 (4 BFS rounds), then the parent, the grandparent, and the
parent's other children. -/
def findRelatedDirectories (dirs : List (List ℕ)) (d0 : List ℕ) : List (List ℕ) :=
  bfsAux dirs 4 [d0] ++
    match parentKey d0 with
    | Option.none => []
    | some p =>
        [p] ++ (parentKey p).toList ++
          (childDirs dirs p).filter (fun x => decide (x ≠ d0))

/-- The `BTreeSet` order on `File`: by size, then by rowid. -/
def fileLE (a b : PFile) : Bool :=
  decide (a.size < b.size ∨ (a.size = b.size ∧ a.rowid ≤ b.rowid))

/-- The remaining files of directory `d`, in ascending `(size, rowid)`
order (the `BTreeSet` iteration order). -/
def dirFiles (s : List PFile) (d : List ℕ) : List PFile :=
  (s.filter (fun f => decide (dirOf f.path = d))).mergeSort fileLE

/-- `top.iter().enumerate().rev().find(|(_, f)| f.size > file.size)`
followed by `top.remove(idx)`: drop the last element larger than `sz`. -/
def removeLastLarger (top : List PFile) (sz : ℕ) : Option (List PFile) :=
  match ((List.range top.length).filter
      (fun i => decide (sz < (top.getD i ⟨0, 0, []⟩).size))).getLast? with
  | Option.none => Option.none
  | some idx => some (top.eraseIdx idx)

/-- One candidate file considered by the top-N selection loop: push while
`top` is not full (updating the running minimum), skip when not smaller
than the minimum, otherwise replace the last larger element. -/
def selectStep (filesToAdd : ℕ) (st : List PFile × ℕ) (f : PFile) :
    List PFile × ℕ :=
  if st.1.length < filesToAdd then (st.1 ++ [f], min st.2 f.size)
  else if st.2 ≤ f.size then st
  else
    match removeLastLarger st.1 f.size with
    | some top2 => (top2 ++ [f], f.size)
    | Option.none => (st.1 ++ [f], st.2)

/-- The whole top-N search of one pack: fold `selectStep` over the files
of every related directory (each in `BTreeSet` order), starting from the
empty `top` and `min_size = u64::MAX`. -/
def selectTop (dirs : List (List ℕ)) (filesToAdd : ℕ) (s : List PFile)
    (d0 : List ℕ) : List PFile :=
  (((findRelatedDirectories dirs d0).flatMap (dirFiles s)).foldl
    (selectStep filesToAdd) ([], 2 ^ 64 - 1)).1

/-- `files.pop_last()`: remove and return the greatest element in the
`(size, rowid)` order. -/
def popMax (s : List PFile) : Option (PFile × List PFile) :=
  match s with
  | [] => Option.none
  | f :: rest =>
      let m := rest.foldl (fun acc g => if fileLE acc g then g else acc) f
      some (m, s.erase m)

/-- The pack-building loop: pop the largest remaining file, run the top-N
search among its related directories, remove the chosen files, emit the
pack (chosen rowids then the largest's rowid), and continue with the pack
size incremented. -/
def packSmallAux (dirs : List (List ℕ)) (sizeOfPack : ℕ) (s : List PFile) :
    List (List ℕ) :=
  match hpop : popMax s with
  | Option.none => []
  | some (largest, s') =>
      let top := selectTop dirs (sizeOfPack - 1) s' (dirOf largest.path)
      let snew := top.foldl (fun acc f => acc.erase f) s'
      (top.map PFile.rowid ++ [largest.rowid]) ::
        packSmallAux dirs (sizeOfPack + 1) snew
termination_by s.length
decreasing_by
  have hfold : ∀ (top acc : List PFile),
      (top.foldl (fun acc f => acc.erase f) acc).length ≤ acc.length := by
    intro top
    induction top with
    | nil => intro acc; simp
    | cons f rest ih =>
      intro acc
      rw [List.foldl_cons]
      exact le_trans (ih (acc.erase f)) (List.length_erase_le ..)
  have hm : largest ∈ s ∧ s' = s.erase largest := by
    cases s with
    | nil =>
      rw [popMax] at hpop
      exact absurd hpop (by simp)
    | cons f rest =>
      rw [popMax] at hpop
      simp only [Option.some_inj, Prod.mk.injEq] at hpop
      obtain ⟨hm, hs'⟩ := hpop
      refine ⟨?_, by rw [← hs', ← hm]⟩
      rw [← hm]
      clear hm hs'
      induction rest generalizing f with
      | nil => simp
      | cons g rest ih =>
        simp only [List.foldl_cons]
        rcases h2 : fileLE f g with _ | _
        · simp only [h2, Bool.false_eq_true, if_false]
          rcases List.mem_cons.mp (ih f) with h | h
          · simp [h]
          · simp [List.mem_cons, h]
        · simp only [h2, if_true]
          rcases List.mem_cons.mp (ih g) with h | h
          · simp [h]
          · simp [List.mem_cons, h]
  have h1 : s'.length < s.length := by
    rw [hm.2]
    have h2 := List.length_erase_of_mem hm.1
    have h3 : 0 < s.length := List.length_pos_of_mem hm.1
    omega
  exact lt_of_le_of_lt (hfold ..) h1

/-- Iterated parent links of directory keys. -/
def parentIter : ℕ → List ℕ → Option (List ℕ)
  | 0, k => some k
  | n + 1, k => (parentKey k).bind (parentIter n)

/-- Whether a diff row is matched by the packer's
`DiffRow::Changed | DiffRow::Created` patterns. -/
def isEligible (r : PRow) : Bool :=
  decide (r.type = DiffType.Created ∨ r.type = DiffType.Changed)

/-- `pack(diff, min_size)`: group the small Created/Changed rows with the
directory-tree heuristic, then append every large Created/Changed row as
a singleton pack.  `none` models the `size - 1` underflow panic of
`less_than(0)`. -/
def pack (diff : List PRow) (min_size : ℕ) : Option (List (List ℕ)) := do
  let range ← less_than min_size
  let smallRows := (queryRows diff range).filter isEligible
  -- `row.get::<u64>(3)` in `for_each`: every row passing the query's size
  -- filter has a non-NULL size, so the `getD 0` default is never taken.
  let files := smallRows.map (fun r => PFile.mk r.rowid (r.size.getD 0) r.path)
  let dirs := buildDirs files
  let packsSmall := packSmallAux dirs 2 files
  let bigRows := (queryRows diff (larger_or_eq min_size)).filter isEligible
  pure (packsSmall ++ bigRows.map (fun r => [r.rowid]))

/-- On the valid domain, the bit-or of the shifted table id with the row id
is plain positional arithmetic. -/
lemma generate_id_eq (t r : ℕ) (ht : t < 2 ^ 23) (hr : r < 2 ^ 40) :
    generate_id t r = some (t * 2 ^ 40 + r) := by
  unfold generate_id
  rw [if_pos ht, if_pos hr]
  congr 1
  rw [Nat.shiftLeft_eq, Nat.mul_comm, ← Nat.mul_add_lt_is_or hr, Nat.mul_comm]

/-- **C4.** `generate_id` is injective on its valid domain (`s < 2²³`,
`r < 2⁴⁰`); the result is `(s <<< 40) ||| r`, equals `s·2⁴⁰ + r`, and always
fits in 63 bits. -/
theorem generate_id_injective_and_bounded
    (s₁ r₁ s₂ r₂ : ℕ)
    (hs₁ : s₁ < 2 ^ 23) (hr₁ : r₁ < 2 ^ 40)
    (hs₂ : s₂ < 2 ^ 23) (hr₂ : r₂ < 2 ^ 40)
    (hne : (s₁, r₁) ≠ (s₂, r₂)) :
    generate_id s₁ r₁ ≠ generate_id s₂ r₂ ∧
      ∃ v, generate_id s₁ r₁ = some v ∧ v = s₁ * 2 ^ 40 + r₁ ∧ v < 2 ^ 63 := by
  have h₁ := generate_id_eq s₁ r₁ hs₁ hr₁
  have h₂ := generate_id_eq s₂ r₂ hs₂ hr₂
  refine ⟨?_, s₁ * 2 ^ 40 + r₁, h₁, rfl, ?_⟩
  · rw [h₁, h₂]
    intro h
    apply hne
    have hv : s₁ * 2 ^ 40 + r₁ = s₂ * 2 ^ 40 + r₂ := by
      simpa using h
    have hs : s₁ = s₂ ∧ r₁ = r₂ := by constructor <;> omega
    rw [hs.1, hs.2]
  · calc s₁ * 2 ^ 40 + r₁ < s₁ * 2 ^ 40 + 2 ^ 40 := by omega
      _ = (s₁ + 1) * 2 ^ 40 := by ring
      _ ≤ 2 ^ 23 * 2 ^ 40 := Nat.mul_le_mul_right _ (by omega)
      _ = 2 ^ 63 := by norm_num

/-- Witness for C4 at `(s₁, r₁) = (1, 2)`, `(s₂, r₂) = (1, 3)`. -/
theorem generate_id_injective_and_bounded_witness :
    generate_id 1 2 ≠ generate_id 1 3 ∧
      ∃ v, generate_id 1 2 = some v ∧ v = 1 * 2 ^ 40 + 2 ∧ v < 2 ^ 63 :=
  generate_id_injective_and_bounded 1 2 1 3
    (by norm_num) (by norm_num) (by norm_num) (by norm_num) (by decide)

lemma decode_convert (n : ℕ) (h : n < 2 ^ 32) : decode_u32 (convert_u32 n) = n := by
  unfold decode_u32 convert_u32
  have hand : n &&& 0xFFFF = n % 2 ^ 16 := by
    have e : (0xFFFF : ℕ) = 2 ^ 16 - 1 := by norm_num
    rw [e, Nat.and_pow_two_sub_one_eq_mod]
  have h1 : n >>> 16 < 2 ^ 16 := by
    rw [Nat.shiftRight_eq_div_pow]
    omega
  simp only [hand, Nat.mod_eq_of_lt h1, Nat.mod_mod_of_dvd n (by norm_num : (2:ℕ)^16 ∣ 2^32)]
  rw [Nat.shiftLeft_eq, Nat.shiftRight_eq_div_pow, Nat.mul_comm,
    ← Nat.mul_add_lt_is_or (Nat.mod_lt _ (by norm_num)), Nat.mul_comm]
  omega

/-- **C6.** For every file size `n < 2⁴⁸`, encoding the size into the
header fields (`rdev` = high 16 bits, `filesize` = low 32 bits) and
decoding with `CpioHeader::size` returns exactly `n`. -/
theorem cpio_size_roundtrip (n : ℕ) (h : n < 2 ^ 48) :
    header_size (from_info_size_fields n).1 (from_info_size_fields n).2 = n := by
  unfold header_size from_info_size_fields
  have hlo : n &&& 0xFFFFFFFF = n % 2 ^ 32 := by
    have : (0xFFFFFFFF : ℕ) = 2 ^ 32 - 1 := by norm_num
    rw [this, Nat.and_pow_two_sub_one_eq_mod]
  have hmod : (n &&& 0xFFFFFFFF) % 2 ^ 32 = n % 2 ^ 32 := by
    rw [hlo]
    omega
  have hhi : (n >>> 32) % 2 ^ 16 = n >>> 32 := by
    apply Nat.mod_eq_of_lt
    rw [Nat.shiftRight_eq_div_pow]
    omega
  simp only [hmod, hhi, decode_convert _ (Nat.mod_lt _ (by norm_num))]
  rw [Nat.shiftLeft_eq, Nat.shiftRight_eq_div_pow, Nat.mul_comm,
    ← Nat.mul_add_lt_is_or (Nat.mod_lt _ (by norm_num)), Nat.mul_comm]
  omega

/-- Witness for C6 at `n = 2^40 + 5` (a size needing the `rdev` bits). -/
theorem cpio_size_roundtrip_witness :
    header_size (from_info_size_fields (2 ^ 40 + 5)).1
      (from_info_size_fields (2 ^ 40 + 5)).2 = 2 ^ 40 + 5 :=
  cpio_size_roundtrip (2 ^ 40 + 5) (by norm_num)

lemma u64ToAsciiAux_length (num idx : ℕ) (result : List ℕ) :
    (u64ToAsciiAux num idx result).length = result.length := by
  induction num using Nat.strong_induction_on generalizing idx result with
  | _ num ih =>
    rw [u64ToAsciiAux]
    split
    · rfl
    · rw [ih _ (Nat.div_lt_self (Nat.pos_of_ne_zero (by assumption)) (by decide))]
      exact List.length_set ..

lemma u64ToAsciiAux_mem (num idx : ℕ) (result : List ℕ)
    (hres : ∀ c ∈ result, c ∈ asciiAlphabet) :
    ∀ c ∈ u64ToAsciiAux num idx result, c ∈ asciiAlphabet := by
  induction num using Nat.strong_induction_on generalizing idx result with
  | _ num ih =>
    rw [u64ToAsciiAux]
    split
    · exact hres
    · refine ih _ (Nat.div_lt_self (Nat.pos_of_ne_zero (by assumption)) (by decide)) _ _ ?_
      intro c hc
      rcases List.mem_or_eq_of_mem_set hc with h | h
      · exact hres c h
      · rw [h, List.getD_eq_getElem?_getD,
          List.getElem?_eq_getElem (Nat.mod_lt _ (by decide))]
        exact List.getElem_mem ..

lemma u64_to_ascii_length (num : ℕ) : (u64_to_ascii num).length = 12 := by
  rw [u64_to_ascii, u64ToAsciiAux_length]
  exact List.length_replicate ..

lemma u64_to_ascii_mem (num : ℕ) : ∀ c ∈ u64_to_ascii num, c ∈ asciiAlphabet := by
  apply u64ToAsciiAux_mem
  intro c hc
  rw [List.eq_of_mem_replicate hc, List.getD_eq_getElem?_getD,
    List.getElem?_eq_getElem (by decide)]
  exact List.getElem_mem ..

lemma dotIndex_le (p : List ℕ) : dotIndex p ≤ p.length := by
  unfold dotIndex
  cases hl : (((List.range p.length).filter
      (fun i => decide (p.length - 10 ≤ i) && decide (p.getD i 0 = 46)))).getLast? with
  | none => simp
  | some i =>
    have hmem : i ∈ (List.range p.length).filter
        (fun i => decide (p.length - 10 ≤ i) && decide (p.getD i 0 = 46)) :=
      List.mem_of_getLast?_eq_some hl
    have := List.mem_range.mp (List.mem_of_mem_filter hmem)
    simp only [Option.getD_some]
    omega

lemma dotIndex_spec (p : List ℕ) :
    (dotIndex p = p.length ∧
      ∀ i, p.length - 10 ≤ i → i < p.length → p.getD i 0 ≠ 46) ∨
    (dotIndex p < p.length ∧ p.length - 10 ≤ dotIndex p ∧
      p.getD (dotIndex p) 0 = 46) := by
  unfold dotIndex
  cases hl : (((List.range p.length).filter
      (fun i => decide (p.length - 10 ≤ i) && decide (p.getD i 0 = 46)))).getLast? with
  | none =>
    left
    refine ⟨by simp, ?_⟩
    intro i hge hlt hdot
    rw [List.getLast?_eq_none_iff] at hl
    have hmem : i ∈ (List.range p.length).filter
        (fun i => decide (p.length - 10 ≤ i) && decide (p.getD i 0 = 46)) := by
      rw [List.mem_filter]
      refine ⟨List.mem_range.mpr hlt, ?_⟩
      simp only [Bool.and_eq_true, decide_eq_true_eq]
      exact ⟨hge, hdot⟩
    rw [hl] at hmem
    exact absurd hmem (List.not_mem_nil i)
  | some i =>
    right
    have hmem : i ∈ (List.range p.length).filter
        (fun i => decide (p.length - 10 ≤ i) && decide (p.getD i 0 = 46)) :=
      List.mem_of_getLast?_eq_some hl
    have hrange := List.mem_range.mp (List.mem_of_mem_filter hmem)
    have hpred := List.of_mem_filter hmem
    simp only [Bool.and_eq_true, decide_eq_true_eq] at hpred
    simp only [Option.getD_some]
    exact ⟨hrange, hpred.1, hpred.2⟩

/-- **C5.** For every path `p`, hash value and limit `max > 22` (the
asserted precondition): if `|p| ≤ max` the path is returned unchanged;
otherwise the result has length exactly `max` and is a prefix of `p`
followed by the 12-character hash over the 42-symbol (≥ 41) alphabet,
followed by the dot-suffix of `p` whenever the final 10 bytes of `p`
contain a `'.'` (and by nothing otherwise). -/
theorem crop_name_to_spec (p : List ℕ) (max_length hash : ℕ)
    (hmax : 22 < max_length) :
    (p.length ≤ max_length → crop_name_to hash max_length p = some p) ∧
    (max_length < p.length →
      ∃ res, crop_name_to hash max_length p = some res ∧
        res.length = max_length ∧
        41 ≤ asciiAlphabet.length ∧
        (u64_to_ascii hash).length = 12 ∧
        (∀ c ∈ u64_to_ascii hash, c ∈ asciiAlphabet) ∧
        ∃ k suffix, res = p.take k ++ u64_to_ascii hash ++ suffix ∧
          ((∀ i, p.length - 10 ≤ i → i < p.length → p.getD i 0 ≠ 46) →
            suffix = []) ∧
          ((∃ i, p.length - 10 ≤ i ∧ i < p.length ∧ p.getD i 0 = 46) →
            suffix = p.drop (dotIndex p) ∧
            p.getD (dotIndex p) 0 = 46 ∧ p.length - 10 ≤ dotIndex p)) := by
  constructor
  · intro hle
    unfold crop_name_to
    rw [if_pos hle]
  · intro hgt
    have hnle : ¬ p.length ≤ max_length := by omega
    have hassert : ¬ ¬ 12 + 10 < max_length := by omega
    have hdot_le := dotIndex_le p
    have hdot_ge : p.length - 10 ≤ dotIndex p := by
      rcases dotIndex_spec p with ⟨heq, _⟩ | ⟨_, hge, _⟩
      · omega
      · exact hge
    have hext : (p.drop (dotIndex p)).length = p.length - dotIndex p :=
      List.length_drop ..
    have hname : (p.take (dotIndex p)).length = dotIndex p := by
      rw [List.length_take]
      omega
    have hspace_le :
        max_length - (p.drop (dotIndex p)).length - (u64_to_ascii hash).length ≤
          (p.take (dotIndex p)).length := by
      rw [hext, hname, u64_to_ascii_length]
      omega
    have hspace_val :
        max_length - (p.drop (dotIndex p)).length - (u64_to_ascii hash).length =
          max_length - (p.length - dotIndex p) - 12 := by
      rw [hext, u64_to_ascii_length]
    have hcrop : crop_name_to hash max_length p =
        some ((p.take (dotIndex p)).take
            (max_length - (p.drop (dotIndex p)).length - (u64_to_ascii hash).length) ++
          u64_to_ascii hash ++ p.drop (dotIndex p)) := by
      unfold crop_name_to
      rw [if_neg hnle, if_neg hassert]
      simp only []
      rw [if_pos hspace_le]
    have htt : (p.take (dotIndex p)).take
        (max_length - (p.drop (dotIndex p)).length - (u64_to_ascii hash).length) =
        p.take (max_length - (p.length - dotIndex p) - 12) := by
      rw [hspace_val, List.take_take, Nat.min_def, if_pos (by omega)]
    refine ⟨p.take (max_length - (p.length - dotIndex p) - 12) ++
        u64_to_ascii hash ++ p.drop (dotIndex p),
      by rw [hcrop, htt], ?_, by decide, u64_to_ascii_length hash, u64_to_ascii_mem hash,
      max_length - (p.length - dotIndex p) - 12, p.drop (dotIndex p), rfl, ?_, ?_⟩
    · rw [List.length_append, List.length_append, List.length_take, hext,
        u64_to_ascii_length]
      omega
    · intro hnodot
      rcases dotIndex_spec p with ⟨heq, _⟩ | ⟨hlt, hge, hdot⟩
      · rw [heq, List.drop_length]
      · exact absurd hdot (hnodot _ hge hlt)
    · intro ⟨i, hge, hlt, hdot⟩
      rcases dotIndex_spec p with ⟨_, hnone⟩ | ⟨_, hge', hdot'⟩
      · exact absurd hdot (hnone i hge hlt)
      · exact ⟨rfl, hdot', hge'⟩

/-- Witness for C5: the 30-byte path `cropDemoPath` cropped to 25 with
hash 0. -/
theorem crop_name_to_spec_witness :
    (cropDemoPath.length ≤ 25 → crop_name_to 0 25 cropDemoPath = some cropDemoPath) ∧
    (25 < cropDemoPath.length → ∃ res,
      crop_name_to 0 25 cropDemoPath = some res ∧ res.length = 25 ∧
      41 ≤ asciiAlphabet.length ∧ (u64_to_ascii 0).length = 12 ∧
      (∀ c ∈ u64_to_ascii 0, c ∈ asciiAlphabet) ∧
      ∃ k suffix, res = cropDemoPath.take k ++ u64_to_ascii 0 ++ suffix ∧
        ((∀ i, cropDemoPath.length - 10 ≤ i → i < cropDemoPath.length →
            cropDemoPath.getD i 0 ≠ 46) → suffix = []) ∧
        ((∃ i, cropDemoPath.length - 10 ≤ i ∧ i < cropDemoPath.length ∧
            cropDemoPath.getD i 0 = 46) →
          suffix = cropDemoPath.drop (dotIndex cropDemoPath) ∧
          cropDemoPath.getD (dotIndex cropDemoPath) 0 = 46 ∧
          cropDemoPath.length - 10 ≤ dotIndex cropDemoPath)) :=
  crop_name_to_spec cropDemoPath 25 0 (by norm_num)

lemma changedInsert_errors (before after : List SnapRow) :
    changedInsert before after = .error (.ambiguousColumn "size") := rfl

/-- **C1.** The claim describes the intended fill semantics, but the code
has a bug: the Changed `INSERT` references the unqualified columns
`size`/`path`, ambiguous between the two joined `snap` tables, so SQLite
refuses to prepare it.  `Diff::fill` therefore always returns the error
"ambiguous column name: size" — after inserting the Deleted and Created
rows — and no `Changed` row is ever inserted, for any pair of
snapshots. -/
theorem diff_fill_always_errors (before after : List SnapRow) :
    (fill before after).2 = some (SqlError.ambiguousColumn "size") ∧
    ∀ row ∈ (fill before after).1, row.type ≠ DiffType.Changed := by
  unfold fill
  rw [changedInsert_errors]
  refine ⟨rfl, ?_⟩
  intro row hrow
  simp only [List.mem_append, List.mem_map, List.mem_filter] at hrow
  rcases hrow with ⟨r, _, heq⟩ | ⟨r, _, heq⟩ <;> rw [← heq] <;> simp

/-- **C2, counterexample.** For a file whose content was modified between
the snapshots (identifier `[1]` → `[2]`, path unchanged), the diff does
*not* contain exactly one `Changed` row for it: it contains none.  The
identifier changed, so the row pair never meets the `Changed` join on
`identifier`; the file shows up as `Deleted` + `Created` instead
(exactly as the doc comment on `DiffType::Created` states). -/
theorem diff_modified_file_not_changed_cex :
    ¬ ((fill c2Before c2After).1.filter
        (fun r => decide (r.type = DiffType.Changed))).length = 1 ∧
    (fill c2Before c2After).1 =
      [⟨some 1, none, .Deleted, some 5, [112]⟩,
       ⟨none, some 2, .Created, some 6, [112]⟩] := by
  constructor
  · decide
  · decide

/-- **C2, amended.** For a file whose content is modified between two
snapshots (identifier differs, path unchanged, all other rows common to
both snapshots), the diff table receives exactly one `Deleted` row and
exactly one `Created` row for that file — and no `Changed` row (the fill
itself additionally stops with the ambiguous-column error of C1). -/
theorem diff_modified_file_deleted_created
    (common : List SnapRow) (rb ra : SnapRow)
    (hpath : rb.path = ra.path)
    (hb : rb.identifier ∉ (common ++ [ra]).map SnapRow.identifier)
    (ha : ra.identifier ∉ (common ++ [rb]).map SnapRow.identifier) :
    (fill (common ++ [rb]) (common ++ [ra])).1 =
      [⟨some rb.id, none, .Deleted, rb.size, rb.path⟩,
       ⟨none, some ra.id, .Created, ra.size, ra.path⟩] ∧
    ∀ row ∈ (fill (common ++ [rb]) (common ++ [ra])).1,
      row.type ≠ DiffType.Changed := by
  have hmain :
      (fill (common ++ [rb]) (common ++ [ra])).1 =
        [⟨some rb.id, none, .Deleted, rb.size, rb.path⟩,
         ⟨none, some ra.id, .Created, ra.size, ra.path⟩] := by
    unfold fill
    rw [changedInsert_errors]
    simp only []
    have hdel : (common ++ [rb]).filter
        (fun r => decide (r.identifier ∉ (common ++ [ra]).map SnapRow.identifier)) =
        [rb] := by
      rw [List.filter_append]
      have h1 : common.filter
          (fun r => decide (r.identifier ∉ (common ++ [ra]).map SnapRow.identifier)) =
          [] := by
        rw [List.filter_eq_nil_iff]
        intro r hr
        simp only [decide_eq_true_eq, Decidable.not_not]
        rw [List.map_append, List.mem_append]
        exact Or.inl (List.mem_map_of_mem _ hr)
      have h2 : List.filter
          (fun r => decide (r.identifier ∉ (common ++ [ra]).map SnapRow.identifier))
          [rb] = [rb] := by
        rw [List.filter_eq_self]
        intro r hr
        rw [List.mem_singleton] at hr
        subst hr
        simpa using hb
      rw [h1, h2, List.nil_append]
    have hcre : (common ++ [ra]).filter
        (fun r => decide (r.identifier ∉ (common ++ [rb]).map SnapRow.identifier)) =
        [ra] := by
      rw [List.filter_append]
      have h1 : common.filter
          (fun r => decide (r.identifier ∉ (common ++ [rb]).map SnapRow.identifier)) =
          [] := by
        rw [List.filter_eq_nil_iff]
        intro r hr
        simp only [decide_eq_true_eq, Decidable.not_not]
        rw [List.map_append, List.mem_append]
        exact Or.inl (List.mem_map_of_mem _ hr)
      have h2 : List.filter
          (fun r => decide (r.identifier ∉ (common ++ [rb]).map SnapRow.identifier))
          [ra] = [ra] := by
        rw [List.filter_eq_self]
        intro r hr
        rw [List.mem_singleton] at hr
        subst hr
        simpa using ha
      rw [h1, h2, List.nil_append]
    rw [hdel, hcre]
    rfl
  refine ⟨hmain, ?_⟩
  intro row hrow
  rw [hmain] at hrow
  rcases hrow with _ | ⟨_, hrow⟩
  · simp
  · rcases hrow with _ | ⟨_, hrow⟩
    · simp
    · exact absurd hrow (List.not_mem_nil row)

/-- Witness for the amended C2 at the concrete modified-file scenario
(`common = c2Before`'s row untouched in both snapshots). -/
theorem diff_modified_file_deleted_created_witness :
    (fill ([⟨0, [99], some 1, [9], "c"⟩] ++ [⟨1, [112], some 5, [1], "infoA"⟩])
        ([⟨0, [99], some 1, [9], "c"⟩] ++ [⟨2, [112], some 6, [2], "infoB"⟩])).1 =
      [⟨some 1, none, .Deleted, some 5, [112]⟩,
       ⟨none, some 2, .Created, some 6, [112]⟩] ∧
    ∀ row ∈ (fill ([⟨0, [99], some 1, [9], "c"⟩] ++ [⟨1, [112], some 5, [1], "infoA"⟩])
        ([⟨0, [99], some 1, [9], "c"⟩] ++ [⟨2, [112], some 6, [2], "infoB"⟩])).1,
      row.type ≠ DiffType.Changed :=
  diff_modified_file_deleted_created
    [⟨0, [99], some 1, [9], "c"⟩]
    ⟨1, [112], some 5, [1], "infoA"⟩
    ⟨2, [112], some 6, [2], "infoB"⟩
    (by decide) (by decide) (by decide)

/-- **C7, counterexample.**  Split `B = [1, 2]` across two `poll_read`
calls that share one cumulative buffer (the `read_exact` pattern): the
second call's buffer still holds `[1]`, so `digest.update(buf.filled())`
re-feeds it and the digest input becomes `[1, 1, 2] ≠ B`, even though the
bytes obtained from the underlying stream are exactly `B`. -/
theorem stream_hash_read_digest_cex :
    streamHashReadRun [([], [1]), ([1], [2])] = [1, 1, 2] ∧
    (([([], [1]), ([1], [2])] : List (List ℕ × List ℕ)).map Prod.snd).flatten
      = [1, 2] ∧
    streamHashReadRun [([], [1]), ([1], [2])] ≠
      (([([], [1]), ([1], [2])] : List (List ℕ × List ℕ)).map Prod.snd).flatten := by
  refine ⟨by decide, by decide, by decide⟩

lemma streamHashReadRun_fresh_aux (calls : List (List ℕ × List ℕ))
    (d : List ℕ) (hfresh : ∀ c ∈ calls, c.1 = []) :
    calls.foldl (fun digest c => (streamHashPollRead digest c.1 c.2).2) d =
      d ++ (calls.map Prod.snd).flatten := by
  induction calls generalizing d with
  | nil => simp
  | cons c rest ih =>
    have hc : c.1 = [] := hfresh c (List.mem_cons_self ..)
    simp only [List.foldl_cons, List.map_cons, List.flatten_cons]
    rw [ih _ (fun x hx => hfresh x (List.mem_cons_of_mem _ hx))]
    simp [streamHashPollRead, hc]

lemma streamHashWriteRun_aux (calls : List (List ℕ × ℕ)) (seen d : List ℕ)
    (h : d = seen) :
    (calls.foldl (fun acc c =>
      ((acc.1 ++ (streamHashPollWrite acc.2 c.1 c.2).1),
        (streamHashPollWrite acc.2 c.1 c.2).2)) (seen, d)).2 =
    (calls.foldl (fun acc c =>
      ((acc.1 ++ (streamHashPollWrite acc.2 c.1 c.2).1),
        (streamHashPollWrite acc.2 c.1 c.2).2)) (seen, d)).1 := by
  induction calls generalizing seen d with
  | nil => simpa using h
  | cons c rest ih =>
    simp only [List.foldl_cons]
    exact ih _ _ (by rw [h, streamHashPollWrite])

/-- **C7, amended.** Provided every `poll_read` call is made with a
buffer holding no previously-filled bytes (fresh per-call buffers, as in
this crate's own usage), the digest input over a read run equals exactly
the bytes `B` obtained from the underlying stream; and over any write
run, the digest input equals exactly the bytes delivered to the
underlying stream. -/
theorem stream_hash_transparent
    (reads : List (List ℕ × List ℕ)) (writes : List (List ℕ × ℕ))
    (hfresh : ∀ c ∈ reads, c.1 = []) :
    streamHashReadRun reads = (reads.map Prod.snd).flatten ∧
    (streamHashWriteRun writes).2 = (streamHashWriteRun writes).1 := by
  constructor
  · rw [streamHashReadRun, streamHashReadRun_fresh_aux reads [] hfresh]
    simp
  · exact streamHashWriteRun_aux writes [] [] rfl

/-- Witness for the amended C7: two fresh-buffer reads of `[3,4]` and
`[5]`, and one write of `[6,7]` of which the sink accepts one byte. -/
theorem stream_hash_transparent_witness :
    streamHashReadRun [([], [3, 4]), ([], [5])] =
      (([([], [3, 4]), ([], [5])] : List (List ℕ × List ℕ)).map Prod.snd).flatten ∧
    (streamHashWriteRun [([6, 7], 1)]).2 = (streamHashWriteRun [([6, 7], 1)]).1 :=
  stream_hash_transparent [([], [3, 4]), ([], [5])] [([6, 7], 1)] (by decide)

lemma runFrom_eof (a : MArchive) (n : ℕ) : runFrom a .eof n = (.eof, []) := by
  induction n with
  | zero => rfl
  | succ n ih =>
    rw [runFrom]
    simp [advance, ih]

lemma runFrom_split (a : MArchive) (s : WState) (m k : ℕ) :
    runFrom a s (m + k) =
      ((runFrom a (runFrom a s m).1 k).1,
        (runFrom a s m).2 ++ (runFrom a (runFrom a s m).1 k).2) := by
  induction m generalizing s with
  | zero =>
    simp [runFrom]
  | succ m ih =>
    have harith : m + 1 + k = (m + k) + 1 := by omega
    rw [harith, runFrom, runFrom, ih]
    simp [List.append_assoc]

/-- **C9.** Once the writer machine is in `Eof` it never emits another
byte: every step from `Eof` emits nothing, signals end-of-stream
(`buf.eof()`) and stays in `Eof`, and hence every run of any length from
`Eof` produces zero bytes. -/
theorem writer_eof_sticky (a : MArchive) (n : ℕ) :
    advance a .eof = ([], true, .eof) ∧ runFrom a .eof n = (.eof, []) :=
  ⟨rfl, runFrom_eof a n⟩

/-- **C3, counterexample.** Streaming the empty archive produces 40
bytes, not 38 (the spec's component list — 26-byte header + 11-byte name
+ 1 padding NUL + 2-byte manifest — itself sums to 40). -/
theorem empty_archive_not_38_bytes :
    emptyArchiveStream.length ≠ 38 ∧ emptyArchiveStream.length = 40 := by
  refine ⟨by decide, by decide⟩

/-- **C3, amended.** Streaming an archive with zero queued files produces
exactly 40 bytes: the 26-byte trailer header, the 11-byte name
`"TRAILER!!!\0"`, one padding NUL (namesize 11 is odd) and the 2-byte
empty JSON manifest `"[]"` — and any longer run emits nothing further. -/
theorem empty_archive_stream_bytes :
    emptyArchiveStream =
      ({ magic := 0o070707, dev_ino := (0, 0), mode := 0, uid := 0, gid := 0,
         nlink := 0, rdev := 0, mtime := (0, 0), namesize := 11,
         filesize := (0, 0) : CpioHeader }).into_array ++
        trailerName ++ [0] ++ jsonEmptyArray ∧
    (({ magic := 0o070707, dev_ino := (0, 0), mode := 0, uid := 0, gid := 0,
         nlink := 0, rdev := 0, mtime := (0, 0), namesize := 11,
         filesize := (0, 0) : CpioHeader }).into_array).length = 26 ∧
    trailerName.length = 11 ∧ jsonEmptyArray.length = 2 ∧
    emptyArchiveStream.length = 40 ∧
    ∀ k, (runFrom emptyArchive (.none 0) (3 + k)).2 = emptyArchiveStream := by
  refine ⟨by decide, by decide, by decide, by decide, by decide, ?_⟩
  intro k
  have hfst : (runFrom emptyArchive (.none 0) 3).1 = .eof := by decide
  rw [runFrom_split emptyArchive (.none 0) 3 k, hfst, runFrom_eof]
  simp [emptyArchiveStream]

lemma popMax_mem {s : List PFile} {m : PFile} {s' : List PFile}
    (h : popMax s = some (m, s')) : m ∈ s ∧ s' = s.erase m := by
  match s with
  | [] => exact absurd h (by simp [popMax])
  | f :: rest =>
    rw [popMax] at h
    simp only [Option.some_inj, Prod.mk.injEq] at h
    obtain ⟨hm, hs'⟩ := h
    constructor
    · rw [← hm]
      clear hm hs'
      induction rest generalizing f with
      | nil => simp
      | cons g rest ih =>
        simp only [List.foldl_cons]
        rcases h2 : fileLE f g with _ | _
        · simp only [h2, Bool.false_eq_true, if_false]
          have := ih f
          rcases (List.mem_cons.mp this) with h | h
          · simp [h]
          · simp [List.mem_cons, h]
        · simp only [h2, if_true]
          have := ih g
          rcases (List.mem_cons.mp this) with h | h
          · simp [h]
          · simp [List.mem_cons, h]
    · rw [← hs', ← hm]

lemma foldl_erase_length_le (top : List PFile) (s : List PFile) :
    (top.foldl (fun acc f => acc.erase f) s).length ≤ s.length := by
  induction top generalizing s with
  | nil => simp
  | cons f rest ih =>
    simp only [List.foldl_cons]
    exact le_trans (ih (s.erase f)) (List.length_erase_le ..)

lemma mem_prefixes_length {p q : List ℕ} (hp : p ≠ []) (h : q ∈ prefixes p) :
    q.length < p.length := by
  have hpos : 0 < p.length := List.length_pos_of_ne_nil hp
  rw [prefixes, List.cons_append, List.nil_append, List.mem_cons] at h
  rcases h with h | h
  · rw [h]
    simpa using hpos
  · obtain ⟨i, hi, hq⟩ := List.mem_map.mp h
    have hilt := List.mem_range.mp (List.mem_of_mem_filter hi)
    rw [← hq, List.length_take]
    omega

lemma parentKey_length {k p : List ℕ} (h : parentKey k = some p) :
    p.length < k.length := by
  rw [parentKey] at h
  split at h
  · exact absurd h (by simp)
  · rename_i hne
    rw [Option.some_inj] at h
    subst h
    rw [dirOf]
    cases hl : (prefixes k).getLast? with
    | none =>
      simpa using List.length_pos_of_ne_nil hne
    | some q =>
      simp only [Option.getD_some]
      exact mem_prefixes_length hne (List.mem_of_getLast?_eq_some hl)

lemma parentIter_add (m n : ℕ) (k : List ℕ) :
    parentIter (m + n) k = (parentIter m k).bind (parentIter n) := by
  induction m generalizing k with
  | zero => simp [parentIter]
  | succ m ih =>
    have harith : m + 1 + n = (m + n) + 1 := by omega
    rw [harith, parentIter, parentIter]
    cases parentKey k with
    | none => simp
    | some p => simp [ih]

lemma parentIter_length {n : ℕ} {k d : List ℕ} (h : parentIter n k = some d) :
    (n = 0 ∧ d = k) ∨ d.length + n ≤ k.length := by
  induction n generalizing k with
  | zero =>
    left
    rw [parentIter, Option.some_inj] at h
    exact ⟨rfl, h.symm⟩
  | succ n ih =>
    right
    rw [parentIter] at h
    cases hpk : parentKey k with
    | none => rw [hpk] at h; exact absurd h (by simp)
    | some p =>
      rw [hpk, Option.some_bind] at h
      have hlt := parentKey_length hpk
      rcases ih h with ⟨_, hd⟩ | hle
      · subst hd; omega
      · omega

lemma parentIter_fix {n : ℕ} {k : List ℕ} (h : parentIter n k = some k) :
    n = 0 := by
  rcases parentIter_length h with ⟨h0, _⟩ | hle
  · exact h0
  · omega

lemma parentIter_unique {j m : ℕ} {x d0 : List ℕ}
    (hj : parentIter j x = some d0) (hm : parentIter m x = some d0)
    (hle : j ≤ m) : j = m := by
  obtain ⟨c, rfl⟩ := Nat.exists_eq_add_of_le hle
  rw [parentIter_add, hj, Option.some_bind] at hm
  have := parentIter_fix hm
  omega

lemma mem_childDirs {dirs : List (List ℕ)} {d k : List ℕ}
    (h : k ∈ childDirs dirs d) : k ∈ dirs ∧ parentKey k = some d := by
  rw [childDirs, List.mem_filter, decide_eq_true_eq] at h
  exact h

lemma bfsAux_mem_iter (dirs : List (List ℕ)) (d0 : List ℕ) :
    ∀ (n j : ℕ) (front : List (List ℕ)),
      (∀ k ∈ front, parentIter j k = some d0) →
      ∀ x ∈ bfsAux dirs n front, ∃ m, j ≤ m ∧ parentIter m x = some d0 := by
  intro n
  induction n with
  | zero =>
    intro j front _ x hx
    exact absurd hx (by simp [bfsAux])
  | succ n ih =>
    intro j front hfront x hx
    rw [bfsAux, List.mem_append] at hx
    rcases hx with hx | hx
    · exact ⟨j, le_refl j, hfront x hx⟩
    · have hfront' : ∀ k ∈ front.flatMap (childDirs dirs),
          parentIter (j + 1) k = some d0 := by
        intro k hk
        obtain ⟨par, hpar, hchild⟩ := List.mem_flatMap.mp hk
        have hc := mem_childDirs hchild
        have hstep : parentIter (j + 1) k = (parentKey k).bind (parentIter j) := rfl
        rw [hstep, hc.2, Option.some_bind]
        exact hfront par hpar
      obtain ⟨m, hm, hiter⟩ := ih (j + 1) _ hfront' x hx
      exact ⟨m, by omega, hiter⟩

lemma bfsAux_nodup (dirs : List (List ℕ)) (hdirs : dirs.Nodup) (d0 : List ℕ) :
    ∀ (n j : ℕ) (front : List (List ℕ)), front.Nodup →
      (∀ k ∈ front, parentIter j k = some d0) →
      (bfsAux dirs n front).Nodup := by
  intro n
  induction n with
  | zero =>
    intro j front _ _
    simp [bfsAux]
  | succ n ih =>
    intro j front hnd hfront
    rw [bfsAux]
    have hfront' : ∀ k ∈ front.flatMap (childDirs dirs),
        parentIter (j + 1) k = some d0 := by
      intro k hk
      obtain ⟨par, hpar, hchild⟩ := List.mem_flatMap.mp hk
      have hc := mem_childDirs hchild
      have hstep : parentIter (j + 1) k = (parentKey k).bind (parentIter j) := rfl
      rw [hstep, hc.2, Option.some_bind]
      exact hfront par hpar
    have hnd' : (front.flatMap (childDirs dirs)).Nodup := by
      rw [List.nodup_flatMap]
      refine ⟨fun x _ => List.Nodup.filter _ hdirs, ?_⟩
      refine hnd.imp ?_
      intro a b hab
      rw [Function.onFun]
      rw [List.disjoint_left]
      intro x hxa hxb
      have h1 := (mem_childDirs hxa).2
      have h2 := (mem_childDirs hxb).2
      rw [h1] at h2
      exact hab (Option.some_inj.mp h2)
    refine List.Nodup.append hnd (ih (j + 1) _ hnd' hfront') ?_
    rw [List.disjoint_left]
    intro x hxf hxb
    obtain ⟨m, hm, hiter⟩ := bfsAux_mem_iter dirs d0 n (j + 1) _ hfront' x hxb
    have hj := hfront x hxf
    have := parentIter_unique hj hiter (by omega)
    omega

lemma findRelatedDirectories_nodup (dirs : List (List ℕ)) (hdirs : dirs.Nodup)
    (d0 : List ℕ) : (findRelatedDirectories dirs d0).Nodup := by
  have hfront0 : ∀ k ∈ [d0], parentIter 0 k = some d0 := by
    intro k hk
    rw [List.mem_singleton] at hk
    subst hk
    rfl
  have hbfs_nodup : (bfsAux dirs 4 [d0]).Nodup :=
    bfsAux_nodup dirs hdirs d0 4 0 [d0] (by simp) hfront0
  have hbfs_iter : ∀ x ∈ bfsAux dirs 4 [d0], ∃ m, parentIter m x = some d0 := by
    intro x hx
    obtain ⟨m, _, hiter⟩ := bfsAux_mem_iter dirs d0 4 0 [d0] hfront0 x hx
    exact ⟨m, hiter⟩
  have hbfs_len : ∀ x ∈ bfsAux dirs 4 [d0], d0.length ≤ x.length := by
    intro x hx
    obtain ⟨m, hiter⟩ := hbfs_iter x hx
    rcases parentIter_length hiter with ⟨_, hdx⟩ | hle
    · rw [hdx]
    · omega
  rw [findRelatedDirectories]
  cases hpk : parentKey d0 with
  | none => simpa using hbfs_nodup
  | some p =>
    have hplen := parentKey_length hpk
    have hsib : ∀ x ∈ (childDirs dirs p).filter (fun x => decide (x ≠ d0)),
        parentKey x = some p ∧ x ≠ d0 := by
      intro x hx
      rw [List.mem_filter, decide_eq_true_eq] at hx
      exact ⟨(mem_childDirs hx.1).2, hx.2⟩
    have hsib_nodup : ((childDirs dirs p).filter (fun x => decide (x ≠ d0))).Nodup :=
      List.Nodup.filter _ (List.Nodup.filter _ hdirs)
    have hnotbfs : ∀ x, parentKey x = some p → x ≠ d0 → x ∉ bfsAux dirs 4 [d0] := by
      intro x hxp hxne hx
      obtain ⟨m, hiter⟩ := hbfs_iter x hx
      match m with
      | 0 =>
        rw [parentIter, Option.some_inj] at hiter
        exact hxne hiter
      | c + 1 =>
        rw [parentIter, hxp, Option.some_bind] at hiter
        rcases parentIter_length hiter with ⟨_, hdp⟩ | hle
        · rw [← hdp] at hplen
          omega
        · omega
    refine List.Nodup.append hbfs_nodup ?_ ?_
    · show ([p] ++ (parentKey p).toList ++
        (childDirs dirs p).filter (fun x => decide (x ≠ d0))).Nodup
      refine List.Nodup.append (List.Nodup.append (by simp) ?_ ?_) hsib_nodup ?_
      · cases parentKey p <;> simp
      · rw [List.disjoint_left]
        intro x hx1 hx2
        rw [List.mem_singleton] at hx1
        rw [Option.mem_toList] at hx2
        subst hx1
        have := parentKey_length hx2
        omega
      · rw [List.disjoint_left]
        intro x hx1 hx2
        have hs := hsib x hx2
        have hlen1 := parentKey_length hs.1
        rw [List.mem_append, List.mem_singleton, Option.mem_toList] at hx1
        rcases hx1 with hx1 | hx1
        · subst hx1
          omega
        · have := parentKey_length hx1
          omega
    · show List.Disjoint (bfsAux dirs 4 [d0]) ([p] ++ (parentKey p).toList ++
        (childDirs dirs p).filter (fun x => decide (x ≠ d0)))
      rw [List.disjoint_left]
      intro x hx hex
      have hxlen := hbfs_len x hx
      rw [List.mem_append, List.mem_append, List.mem_singleton,
        Option.mem_toList] at hex
      rcases hex with (hex | hex) | hex
      · subst hex
        omega
      · have h1 := parentKey_length hex
        omega
      · have hs := hsib x hex
        exact hnotbfs x hs.1 hs.2 hx

lemma mem_dirFiles {s : List PFile} {d : List ℕ} {f : PFile} :
    f ∈ dirFiles s d ↔ f ∈ s ∧ dirOf f.path = d := by
  rw [dirFiles, List.mem_mergeSort, List.mem_filter, decide_eq_true_eq]

lemma dirFiles_nodup {s : List PFile} (hs : s.Nodup) (d : List ℕ) :
    (dirFiles s d).Nodup := by
  rw [dirFiles]
  exact ((List.mergeSort_perm _ _).nodup_iff).mpr (List.Nodup.filter _ hs)

lemma cands_nodup (dirs : List (List ℕ)) (hdirs : dirs.Nodup)
    {s : List PFile} (hs : s.Nodup) (d0 : List ℕ) :
    ((findRelatedDirectories dirs d0).flatMap (dirFiles s)).Nodup := by
  rw [List.nodup_flatMap]
  refine ⟨fun d _ => dirFiles_nodup hs d, ?_⟩
  refine (findRelatedDirectories_nodup dirs hdirs d0).imp ?_
  intro a b hab
  rw [Function.onFun, List.disjoint_left]
  intro f hfa hfb
  have h1 := (mem_dirFiles.mp hfa).2
  have h2 := (mem_dirFiles.mp hfb).2
  exact hab (h1 ▸ h2 ▸ rfl)

lemma cands_sub {dirs : List (List ℕ)} {s : List PFile} {d0 : List ℕ}
    {f : PFile} (h : f ∈ (findRelatedDirectories dirs d0).flatMap (dirFiles s)) :
    f ∈ s := by
  obtain ⟨d, _, hf⟩ := List.mem_flatMap.mp h
  exact (mem_dirFiles.mp hf).1

lemma selectStep_sublist (fta : ℕ) (st : List PFile × ℕ) (f : PFile) :
    List.Sublist (selectStep fta st f).1 (st.1 ++ [f]) := by
  rw [selectStep]
  split
  · exact List.Sublist.refl _
  · split
    · exact List.sublist_append_left ..
    · split
      · rename_i top2 heq
        rw [removeLastLarger] at heq
        split at heq
        · exact absurd heq (by simp)
        · rw [Option.some_inj] at heq
          rw [← heq]
          simp only []
          exact List.Sublist.append_right (List.eraseIdx_sublist ..) [f]
      · exact List.Sublist.refl _

lemma foldl_selectStep_nodup (fta : ℕ) :
    ∀ (cands top0 : List PFile) (m0 : ℕ), (top0 ++ cands).Nodup →
      ((cands.foldl (selectStep fta) (top0, m0)).1.Nodup ∧
        ∀ f ∈ (cands.foldl (selectStep fta) (top0, m0)).1, f ∈ top0 ++ cands) := by
  intro cands
  induction cands with
  | nil =>
    intro top0 m0 h
    rw [List.append_nil] at h
    exact ⟨h, by simp⟩
  | cons c rest ih =>
    intro top0 m0 h
    rw [List.foldl_cons]
    have hsub : List.Sublist ((selectStep fta (top0, m0) c).1 ++ rest)
        (top0 ++ c :: rest) := by
      have h1 := selectStep_sublist fta (top0, m0) c
      have h2 := List.Sublist.append_right h1 rest
      rwa [List.append_assoc, List.singleton_append] at h2
    have hnd1 : ((selectStep fta (top0, m0) c).1 ++ rest).Nodup :=
      List.Nodup.sublist hsub h
    obtain ⟨ha, hb⟩ := ih (selectStep fta (top0, m0) c).1
      (selectStep fta (top0, m0) c).2 hnd1
    rw [show ((selectStep fta (top0, m0) c).1, (selectStep fta (top0, m0) c).2) =
      selectStep fta (top0, m0) c from rfl] at ha hb
    refine ⟨ha, ?_⟩
    intro f hf
    exact List.Sublist.subset hsub (hb f hf)

lemma perm_foldl_erase :
    ∀ (top s : List PFile), top.Nodup → (∀ f ∈ top, f ∈ s) →
      s.Perm (top ++ top.foldl (fun acc f => acc.erase f) s) := by
  intro top
  induction top with
  | nil =>
    intro s _ _
    simp
  | cons t ts ih =>
    intro s hnd hsub
    have ht : t ∈ s := hsub t (List.mem_cons_self ..)
    rw [List.nodup_cons] at hnd
    have hts_sub : ∀ f ∈ ts, f ∈ s.erase t := by
      intro f hf
      have hne : f ≠ t := fun he => hnd.1 (he ▸ hf)
      exact (List.mem_erase_of_ne hne).mpr (hsub f (List.mem_cons_of_mem _ hf))
    have h2 := ih (s.erase t) hnd.2 hts_sub
    rw [List.foldl_cons]
    exact List.Perm.trans (List.perm_cons_erase ht) (h2.cons t)

lemma popMax_none {s : List PFile} (h : popMax s = Option.none) : s = [] := by
  cases s with
  | nil => rfl
  | cons f rest =>
    rw [popMax] at h
    exact absurd h (by simp)

lemma selectTop_spec (dirs : List (List ℕ)) (hdirs : dirs.Nodup)
    (fta : ℕ) {s : List PFile} (hs : s.Nodup) (d0 : List ℕ) :
    (selectTop dirs fta s d0).Nodup ∧ ∀ f ∈ selectTop dirs fta s d0, f ∈ s := by
  have hcnd := cands_nodup dirs hdirs hs d0
  have h := foldl_selectStep_nodup fta
    ((findRelatedDirectories dirs d0).flatMap (dirFiles s)) [] (2 ^ 64 - 1)
    (by rw [List.nil_append]; exact hcnd)
  refine ⟨h.1, ?_⟩
  intro f hf
  have := h.2 f hf
  rw [List.nil_append] at this
  exact cands_sub this

lemma packSmallAux_spec (dirs : List (List ℕ)) (hdirs : dirs.Nodup) :
    ∀ (n spk : ℕ) (s : List PFile), s.length ≤ n → s.Nodup →
      ((packSmallAux dirs spk s).flatten.Perm (s.map PFile.rowid) ∧
        ∀ p ∈ packSmallAux dirs spk s, p ≠ []) := by
  intro n
  induction n with
  | zero =>
    intro spk s hlen hnd
    have hs : s = [] := List.eq_nil_of_length_eq_zero (by omega)
    subst hs
    rw [packSmallAux]
    split
    · constructor
      · simp
      · intro p hp
        exact absurd hp (List.not_mem_nil p)
    · rename_i largest s' hpop
      exact absurd hpop (by simp [popMax])
  | succ n ih =>
    intro spk s hlen hnd
    rw [packSmallAux]
    split
    · constructor
      · rename_i hpop
        rw [popMax_none hpop]
        simp
      · intro p hp
        exact absurd hp (by simp)
    · rename_i largest s' hpop
      obtain ⟨hmem, hs'⟩ := popMax_mem hpop
      have hnd' : s'.Nodup := by
        rw [hs']
        exact List.Nodup.erase _ hnd
      obtain ⟨hTnd, hTsub⟩ :=
        selectTop_spec dirs hdirs (spk - 1) hnd' (dirOf largest.path)
      have hperm' := perm_foldl_erase
        (selectTop dirs (spk - 1) s' (dirOf largest.path)) s' hTnd hTsub
      have hWnd : ((selectTop dirs (spk - 1) s' (dirOf largest.path)).foldl
          (fun acc f => acc.erase f) s').Nodup := by
        have := (hperm'.nodup_iff).mp hnd'
        exact (List.nodup_append.mp this).2.1
      have hWlen : ((selectTop dirs (spk - 1) s' (dirOf largest.path)).foldl
          (fun acc f => acc.erase f) s').length ≤ n := by
        have h1 := foldl_erase_length_le
          (selectTop dirs (spk - 1) s' (dirOf largest.path)) s'
        have h2 : s'.length < s.length := by
          rw [hs', List.length_erase_of_mem hmem]
          have := List.length_pos_of_mem hmem
          omega
        omega
      obtain ⟨ihperm, ihne⟩ := ih (spk + 1) _ hWlen hWnd
      constructor
      · rw [List.flatten_cons]
        have hgoal₁ : (selectTop dirs (spk - 1) s' (dirOf largest.path)).map
              PFile.rowid ++ [largest.rowid] ++
              (packSmallAux dirs (spk + 1)
                ((selectTop dirs (spk - 1) s' (dirOf largest.path)).foldl
                  (fun acc f => acc.erase f) s')).flatten
            |>.Perm (largest.rowid ::
              ((selectTop dirs (spk - 1) s' (dirOf largest.path)).map PFile.rowid ++
                ((selectTop dirs (spk - 1) s' (dirOf largest.path)).foldl
                  (fun acc f => acc.erase f) s').map PFile.rowid)) := by
          rw [List.append_assoc, List.singleton_append]
          refine List.Perm.trans ?_ List.perm_middle
          exact List.Perm.append_left _ (by simpa using ihperm)
        have hgoal₂ : (s.map PFile.rowid).Perm (largest.rowid ::
            ((selectTop dirs (spk - 1) s' (dirOf largest.path)).map PFile.rowid ++
              ((selectTop dirs (spk - 1) s' (dirOf largest.path)).foldl
                (fun acc f => acc.erase f) s').map PFile.rowid)) := by
          have hc : s.Perm (largest :: s') := by
            rw [hs']
            exact List.perm_cons_erase hmem
          have := (hc.trans (hperm'.cons largest)).map PFile.rowid
          simpa using this
        exact hgoal₁.trans hgoal₂.symm
      · intro p hp
        rw [List.mem_cons] at hp
        rcases hp with hp | hp
        · rw [hp]
          simp
        · exact ihne p hp

lemma less_than_eq {S : ℕ} (h : 1 ≤ S) : less_than S = some (0, S - 1) := by
  rw [less_than, u64CheckedSub, if_pos h]
  rfl

lemma addDirs_nodup {ds : List (List ℕ)} (h : ds.Nodup) (p : List ℕ) :
    (addDirs ds p).Nodup := by
  rw [addDirs]
  generalize prefixes p = ks
  induction ks generalizing ds with
  | nil => exact h
  | cons k ks ih =>
    rw [List.foldl_cons]
    split
    · exact ih h
    · refine ih ?_
      rename_i hk
      rw [List.nodup_append]
      exact ⟨h, List.nodup_singleton k, by simpa using hk⟩

lemma buildDirs_nodup (files : List PFile) : (buildDirs files).Nodup := by
  rw [buildDirs]
  have : ∀ (fs : List PFile) (ds : List (List ℕ)), ds.Nodup →
      (fs.foldl (fun ds f => addDirs ds f.path) ds).Nodup := by
    intro fs
    induction fs with
    | nil => intro ds h; exact h
    | cons f rest ih =>
      intro ds h
      rw [List.foldl_cons]
      exact ih _ (addDirs_nodup h f.path)
  exact this files [] (List.nodup_nil)

lemma flatten_singletons (l : List PRow) :
    (l.map (fun r => [r.rowid])).flatten = l.map PRow.rowid := by
  induction l with
  | nil => rfl
  | cons r rest ih => simp [ih]

lemma filter_partition_perm {α : Type} (l : List α) (p q e : α → Bool)
    (h : ∀ x ∈ l, e x = (p x || q x))
    (hpq : ∀ x ∈ l, ¬(p x = true ∧ q x = true)) :
    (l.filter p ++ l.filter q).Perm (l.filter e) := by
  induction l with
  | nil => simp
  | cons a rest ih =>
    have ih' := ih (fun x hx => h x (List.mem_cons_of_mem _ hx))
      (fun x hx => hpq x (List.mem_cons_of_mem _ hx))
    have ha := h a (List.mem_cons_self ..)
    have hpqa := hpq a (List.mem_cons_self ..)
    by_cases hp : p a = true
    · have hq : q a = false := by
        cases hqv : q a with
        | false => rfl
        | true => exact absurd ⟨hp, hqv⟩ hpqa
      have he : e a = true := by rw [ha, hp, Bool.true_or]
      rw [List.filter_cons, List.filter_cons, List.filter_cons, hp, hq, he]
      simp only [if_true, if_false, List.cons_append]
      exact ih'.cons a
    · have hp' : p a = false := Bool.eq_false_iff.mpr hp
      by_cases hq : q a = true
      · have he : e a = true := by rw [ha, hp', hq, Bool.false_or]
        rw [List.filter_cons, List.filter_cons, List.filter_cons, hp', hq, he]
        simp only [if_true, if_false]
        exact List.Perm.trans List.perm_middle (ih'.cons a)
      · have hq' : q a = false := Bool.eq_false_iff.mpr hq
        have he : e a = false := by rw [ha, hp', hq', Bool.false_or]
        rw [List.filter_cons, List.filter_cons, List.filter_cons, hp', hq', he]
        simpa using ih'

lemma sqlSizeInRange_true {size : Option ℕ} {range : ℕ × ℕ}
    (h : sqlSizeInRange size range = true) :
    ∃ sz, size = some sz ∧ range.1 ≤ sz ∧ sz ≤ range.2 := by
  cases size with
  | none => exact absurd h (by simp [sqlSizeInRange])
  | some sz =>
    simp only [sqlSizeInRange, Bool.and_eq_true, decide_eq_true_eq] at h
    exact ⟨sz, rfl, h.1, h.2⟩

lemma mem_query_filter {diff : List PRow} {range : ℕ × ℕ} {r : PRow}
    (h : r ∈ (queryRows diff range).filter isEligible) :
    r ∈ diff ∧ sqlSizeInRange r.size range = true ∧ isEligible r = true := by
  have h1 := List.mem_filter.mp h
  rw [queryRows] at h1
  have h2 := List.mem_filter.mp h1.1
  simp only [Bool.and_eq_true] at h2
  exact ⟨h2.1, h2.2.2, h1.2⟩

lemma packSmallAux_nil (dirs : List (List ℕ)) (spk : ℕ) :
    packSmallAux dirs spk [] = [] := by
  rw [packSmallAux]
  split
  · rfl
  · rename_i largest s' hpop
    exact absurd hpop (by simp [popMax])

/-- **C8, counterexample.**  The diff table's `size` column is NULL for
directory and unknown rows (`SnapshotFiller::add` binds
`Info::size() = None`), and a Created directory row is realistic — in the
`preview-packs` flow every directory of the walked tree becomes a Created
row of the empty-before diff.  NULL satisfies neither
`0 <= size AND size <= S-1` nor `S <= size`, so both of `pack`'s queries
drop the row and it appears in *no* pack: here `pack` succeeds with no
packs at all although the one-row diff has an eligible Created row,
refuting "every Created or Changed row of D appears in exactly one
pack". -/
theorem pack_null_size_dropped_cex :
    pack [⟨1, DiffType.Created, Option.none, [100]⟩] 10 = some [] ∧
    isEligible ⟨1, DiffType.Created, Option.none, [100]⟩ = true := by
  constructor
  · have h1 : pack [⟨1, DiffType.Created, Option.none, [100]⟩] 10 =
        some (packSmallAux (buildDirs []) 2 [] ++ []) := by
      rw [pack, less_than_eq (by norm_num : (1:ℕ) ≤ 10)]
      rfl
    rw [h1, packSmallAux_nil, List.nil_append]
  · rfl

/-- **C8, amended.** For any diff table and any threshold `S ≥ 1` (with
distinct rowids and `u64` sizes): `pack` succeeds, the rowids in its
packs are exactly the Created/Changed rows of the diff *whose size is
non-NULL* — each in exactly one pack, none twice (the flattened packs
are a permutation of those rowids) — every pack is non-empty, every pack
containing a row of size `≥ S` is a singleton, and every Created/Changed
row with NULL size (directories, unknown entries) appears in no pack. -/
theorem pack_partition (diff : List PRow) (S : ℕ) (hS : 1 ≤ S)
    (hnodup : (diff.map PRow.rowid).Nodup)
    (hsizes : ∀ r ∈ diff, ∀ sz, r.size = some sz → sz ≤ 2 ^ 64 - 1) :
    ∃ packs, pack diff S = some packs ∧
      packs.flatten.Perm ((diff.filter
        (fun r => isEligible r && r.size.isSome)).map PRow.rowid) ∧
      (∀ p ∈ packs, p ≠ []) ∧
      (∀ p ∈ packs, ∀ r ∈ diff, r.rowid ∈ p → ∀ sz, r.size = some sz →
        S ≤ sz → p = [r.rowid]) ∧
      (∀ r ∈ diff, r.size = Option.none → ∀ p ∈ packs, r.rowid ∉ p) := by
  have hpack : pack diff S = some
      (packSmallAux
          (buildDirs (((queryRows diff (0, S - 1)).filter isEligible).map
            (fun r => PFile.mk r.rowid (r.size.getD 0) r.path))) 2
          (((queryRows diff (0, S - 1)).filter isEligible).map
            (fun r => PFile.mk r.rowid (r.size.getD 0) r.path)) ++
        ((queryRows diff (larger_or_eq S)).filter isEligible).map
          (fun r => [r.rowid])) := by
    rw [pack, less_than_eq hS]
    rfl
  have hsmall_sub :
      List.Sublist ((queryRows diff (0, S - 1)).filter isEligible) diff := by
    refine (List.filter_sublist _).trans ?_
    rw [queryRows]
    exact List.filter_sublist _
  have hbig_sub :
      List.Sublist ((queryRows diff (larger_or_eq S)).filter isEligible) diff := by
    refine (List.filter_sublist _).trans ?_
    rw [queryRows]
    exact List.filter_sublist _
  have hids_small_nodup :
      (((queryRows diff (0, S - 1)).filter isEligible).map PRow.rowid).Nodup :=
    List.Nodup.sublist (hsmall_sub.map PRow.rowid) hnodup
  have hfiles_map : ∀ (l : List PRow),
      (l.map (fun r => PFile.mk r.rowid (r.size.getD 0) r.path)).map PFile.rowid =
        l.map PRow.rowid := by
    intro l
    rw [List.map_map]
    rfl
  have hfiles_nodup : (((queryRows diff (0, S - 1)).filter isEligible).map
      (fun r => PFile.mk r.rowid (r.size.getD 0) r.path)).Nodup := by
    apply List.Nodup.of_map PFile.rowid
    rw [hfiles_map]
    exact hids_small_nodup
  obtain ⟨hperm_small, hne_small⟩ := packSmallAux_spec
    (buildDirs (((queryRows diff (0, S - 1)).filter isEligible).map
      (fun r => PFile.mk r.rowid (r.size.getD 0) r.path)))
    (buildDirs_nodup _)
    (((queryRows diff (0, S - 1)).filter isEligible).map
      (fun r => PFile.mk r.rowid (r.size.getD 0) r.path)).length 2 _ (le_refl _)
    hfiles_nodup
  rw [hfiles_map] at hperm_small
  have hpartition :
      (((queryRows diff (0, S - 1)).filter isEligible) ++
        ((queryRows diff (larger_or_eq S)).filter isEligible)).Perm
      (diff.filter (fun r => isEligible r && r.size.isSome)) := by
    have e1 : (queryRows diff (0, S - 1)).filter isEligible =
        diff.filter (fun a => isEligible a &&
          (decide ((DiffType.toBits a.type &&& 7) ≠ 0) &&
            sqlSizeInRange a.size (0, S - 1))) :=
      List.filter_filter ..
    have e2 : (queryRows diff (larger_or_eq S)).filter isEligible =
        diff.filter (fun a => isEligible a &&
          (decide ((DiffType.toBits a.type &&& 7) ≠ 0) &&
            sqlSizeInRange a.size (larger_or_eq S))) :=
      List.filter_filter ..
    rw [e1, e2]
    apply filter_partition_perm
    · intro x hx
      have hb : decide ((DiffType.toBits x.type &&& 7) ≠ 0) = true := by
        cases x.type <;> decide
      cases hxs : x.size with
      | none =>
        cases he : isEligible x <;> simp [he, hxs, sqlSizeInRange]
      | some sz =>
        have hsz := hsizes x hx sz hxs
        by_cases hsml : sz ≤ S - 1
        · have hrange : sqlSizeInRange (some sz) (0, S - 1) = true := by
            simp [sqlSizeInRange, hsml]
          have hrange2 : sqlSizeInRange (some sz) (larger_or_eq S) = false := by
            simp only [sqlSizeInRange, larger_or_eq]
            simp only [Bool.and_eq_false_iff, decide_eq_false_iff_not]
            left
            omega
          cases he : isEligible x <;> simp [he, hxs, hb, hrange, hrange2]
        · have hrange : sqlSizeInRange (some sz) (0, S - 1) = false := by
            simp only [sqlSizeInRange]
            simp only [Bool.and_eq_false_iff, decide_eq_false_iff_not]
            right
            omega
          have hrange2 : sqlSizeInRange (some sz) (larger_or_eq S) = true := by
            simp only [sqlSizeInRange, larger_or_eq]
            simp only [Bool.and_eq_true, decide_eq_true_eq]
            omega
          cases he : isEligible x <;> simp [he, hxs, hb, hrange, hrange2]
    · intro x _ hboth
      obtain ⟨hp, hq⟩ := hboth
      simp only [Bool.and_eq_true] at hp hq
      obtain ⟨sz1, he1, _, hle1⟩ := sqlSizeInRange_true hp.2.2
      obtain ⟨sz2, he2, hge2, _⟩ := sqlSizeInRange_true hq.2.2
      rw [he1, Option.some_inj] at he2
      rw [larger_or_eq] at hge2
      simp only [] at hle1 hge2
      omega
  refine ⟨_, hpack, ?_, ?_, ?_, ?_⟩
  · rw [List.flatten_append, flatten_singletons]
    refine List.Perm.trans (List.Perm.append hperm_small (List.Perm.refl _)) ?_
    rw [← List.map_append]
    exact hpartition.map PRow.rowid
  · intro p hp
    rw [List.mem_append] at hp
    rcases hp with hp | hp
    · exact hne_small p hp
    · obtain ⟨r, _, hr⟩ := List.mem_map.mp hp
      rw [← hr]
      simp
  · intro p hp r hr hrid sz hrsz hrsize
    rw [List.mem_append] at hp
    rcases hp with hp | hp
    · exfalso
      have hmem : r.rowid ∈ (((queryRows diff (0, S - 1)).filter
          isEligible).map PRow.rowid) := by
        refine (hperm_small.mem_iff).mp ?_
        exact List.mem_flatten.mpr ⟨p, hp, hrid⟩
      obtain ⟨r2, hr2mem, hr2id⟩ := List.mem_map.mp hmem
      have hr2r : r2 = r :=
        List.inj_on_of_nodup_map hnodup (hsmall_sub.subset hr2mem) hr hr2id
      obtain ⟨sz2, hsz2, _, hle2⟩ := sqlSizeInRange_true (mem_query_filter hr2mem).2.1
      rw [hr2r, hrsz, Option.some_inj] at hsz2
      simp only [] at hle2
      omega
    · obtain ⟨r2, hr2mem, hr2eq⟩ := List.mem_map.mp hp
      rw [← hr2eq] at hrid
      rw [List.mem_singleton] at hrid
      rw [← hr2eq, hrid]
  · intro r hr hnone p hp hrid
    rw [List.mem_append] at hp
    rcases hp with hp | hp
    · have hmem : r.rowid ∈ (((queryRows diff (0, S - 1)).filter
          isEligible).map PRow.rowid) := by
        refine (hperm_small.mem_iff).mp ?_
        exact List.mem_flatten.mpr ⟨p, hp, hrid⟩
      obtain ⟨r2, hr2mem, hr2id⟩ := List.mem_map.mp hmem
      have hr2r : r2 = r :=
        List.inj_on_of_nodup_map hnodup (hsmall_sub.subset hr2mem) hr hr2id
      obtain ⟨sz2, hsz2, _⟩ := sqlSizeInRange_true (mem_query_filter hr2mem).2.1
      rw [hr2r, hnone] at hsz2
      exact absurd hsz2 (by simp)
    · obtain ⟨r2, hr2mem, hr2eq⟩ := List.mem_map.mp hp
      rw [← hr2eq, List.mem_singleton] at hrid
      have hr2r : r2 = r :=
        List.inj_on_of_nodup_map hnodup (hbig_sub.subset hr2mem) hr hrid.symm
      obtain ⟨sz2, hsz2, _⟩ := sqlSizeInRange_true (mem_query_filter hr2mem).2.1
      rw [hr2r, hnone] at hsz2
      exact absurd hsz2 (by simp)

/-- Witness for the amended C8 at a concrete five-row diff (two small
rows, one big row, one Deleted row, one NULL-size Created directory row)
with threshold `S = 10`. -/
theorem pack_partition_witness :
    ∃ packs, pack [⟨1, .Created, some 5, [97, 47, 98]⟩,
        ⟨2, .Changed, some 3, [97, 47, 99]⟩, ⟨3, .Created, some 100, [100]⟩,
        ⟨4, .Deleted, some 2, [101]⟩, ⟨5, .Created, Option.none, [102]⟩] 10 =
        some packs ∧
      packs.flatten.Perm ((([⟨1, .Created, some 5, [97, 47, 98]⟩,
          ⟨2, .Changed, some 3, [97, 47, 99]⟩, ⟨3, .Created, some 100, [100]⟩,
          ⟨4, .Deleted, some 2, [101]⟩, ⟨5, .Created, Option.none, [102]⟩] :
            List PRow).filter
          (fun r => isEligible r && r.size.isSome)).map PRow.rowid) ∧
      (∀ p ∈ packs, p ≠ []) ∧
      (∀ p ∈ packs, ∀ r ∈ ([⟨1, .Created, some 5, [97, 47, 98]⟩,
          ⟨2, .Changed, some 3, [97, 47, 99]⟩, ⟨3, .Created, some 100, [100]⟩,
          ⟨4, .Deleted, some 2, [101]⟩, ⟨5, .Created, Option.none, [102]⟩] :
            List PRow), r.rowid ∈ p → ∀ sz, r.size = some sz → 10 ≤ sz →
        p = [r.rowid]) ∧
      (∀ r ∈ ([⟨1, .Created, some 5, [97, 47, 98]⟩,
          ⟨2, .Changed, some 3, [97, 47, 99]⟩, ⟨3, .Created, some 100, [100]⟩,
          ⟨4, .Deleted, some 2, [101]⟩, ⟨5, .Created, Option.none, [102]⟩] :
            List PRow), r.size = Option.none → ∀ p ∈ packs, r.rowid ∉ p) :=
  pack_partition [⟨1, .Created, some 5, [97, 47, 98]⟩,
      ⟨2, .Changed, some 3, [97, 47, 99]⟩, ⟨3, .Created, some 100, [100]⟩,
      ⟨4, .Deleted, some 2, [101]⟩, ⟨5, .Created, Option.none, [102]⟩] 10
    (by norm_num) (by decide) (by decide)

/-- **C10.** `DiffQuery::less_than(size)` is only safe for `size ≥ 1`:
then it restricts the query to sizes `0..=size-1` and the subtraction
cannot underflow; for `size = 0` the `u64` subtraction `size - 1`
underflows (a debug-build panic, modelled as `none`), and consequently
`pack`, which calls `less_than(min_size)`, fails for `min_size = 0` and
succeeds for any `min_size ≥ 1`. -/
theorem less_than_underflow :
    (∀ size : ℕ, 1 ≤ size → less_than size = some (0, size - 1)) ∧
    less_than 0 = Option.none ∧
    (∀ diff : List PRow, pack diff 0 = Option.none) ∧
    (∀ diff : List PRow, ∀ m : ℕ, 1 ≤ m → ∃ packs, pack diff m = some packs) := by
  refine ⟨fun size h => less_than_eq h, rfl, fun diff => rfl, ?_⟩
  intro diff m hm
  rw [pack, less_than_eq hm]
  exact ⟨_, rfl⟩

/-- Witness for C10 at `size = 3`, `min_size ∈ {0, 1}` on a one-row diff. -/
theorem less_than_underflow_witness :
    less_than 3 = some (0, 2) ∧
    pack [⟨1, .Created, some 5, [97]⟩] 0 = Option.none ∧
    ∃ packs, pack [⟨1, .Created, some 5, [97]⟩] 1 = some packs :=
  ⟨less_than_underflow.1 3 (by norm_num),
    less_than_underflow.2.2.1 [⟨1, .Created, some 5, [97]⟩],
    less_than_underflow.2.2.2 [⟨1, .Created, some 5, [97]⟩] 1 (by norm_num)⟩

end Colbak
